import Mathlib

/-! Shallow embedding of the KMeansFromScratch repository (KMeansFromScratch.py)
and proofs about its clustering engines.

The file embeds, faithfully to the Python source:
- the KMeansFromScratch class (initialize_centers, compute_distance via squared
  Euclidean distances, assign_labels, update_centers, fit);
- the graph construction, degree vector and Laplacian of ratio_cut_clustering;
- the post-eigensolver thresholding of ratio_cut_clustering;
- load_images_from_folder and the per-image driver loop of main.

Modelling conventions:
- numpy float64 arithmetic is idealized as exact rational arithmetic; IEEE NaN
  (produced by the mean of an empty slice) is modelled by the value none of
  Option Rat, with NaN-propagating operations and NaN-false comparisons;
- np.linalg.norm followed by argmin is modelled by squared Euclidean distances
  followed by argmin: the square root is strictly monotone on nonnegative
  reals and maps NaN to NaN, so the argmin (including the first-NaN rule of numpy)
  is unchanged;
- np.exp is kept symbolic: the graph stores the integer intensity difference d
  of each edge, and theorem statements apply Real.exp (-(d : Real) / 10) to it,
  exactly the expression np.exp(-abs(...) / 10.0) computes;
- external collaborators (np.random.permutation, cv2.imread, os.listdir, the
  eigsh eigensolver) are parameters of the embedded functions, since their
  code is not part of this repository.
-/

/-- Scalar value of the numpy float pipeline: some q is an ordinary value,
none models IEEE NaN (e.g. the mean of an empty slice). -/
abbrev NpFloat := Option ℚ

/-- Addition with NaN propagation. -/
def nfAdd : NpFloat → NpFloat → NpFloat
  | some a, some b => some (a + b)
  | _, _ => none

/-- Subtraction with NaN propagation. -/
def nfSub : NpFloat → NpFloat → NpFloat
  | some a, some b => some (a - b)
  | _, _ => none

/-- Multiplication with NaN propagation. -/
def nfMul : NpFloat → NpFloat → NpFloat
  | some a, some b => some (a * b)
  | _, _ => none

/-- Strict less-than; every comparison with NaN is false, as in IEEE floats. -/
def nfLt : NpFloat → NpFloat → Bool
  | some a, some b => decide (a < b)
  | _, _ => false

/-- Elementwise closeness test of np.allclose with atol = 1e-4 (the call in
fit) and the numpy default rtol = 1e-5; comparisons against NaN are false
(equal_nan is not set). -/
def nfClose : NpFloat → NpFloat → Bool
  | some a, some b => decide (|a - b| ≤ 1 / 10000 + 1 / 100000 * |b|)
  | _, _ => false

/-- Matrix version of np.allclose as used in fit, where both operands are
lists of rows of equal width; a shape mismatch yields false. -/
def nfAllcloseMat (A B : List (List NpFloat)) : Bool :=
  A.length == B.length &&
    (A.zip B).all (fun p =>
      p.1.length == p.2.length &&
        (p.1.zip p.2).all (fun q => nfClose q.1 q.2))

/-- Index of the first occurrence of the minimum of a rational list; 0 on the
empty list. This is np.argmin on NaN-free data: a later element replaces the
current best only on strict improvement. -/
def firstMinIdx : List ℚ → ℕ
  | [] => 0
  | x :: xs => if xs.all (fun y => decide (x ≤ y)) then 0 else firstMinIdx xs + 1

/-- Index of the first NaN of a list, if any. -/
def firstNanIdx : List NpFloat → Option ℕ
  | [] => none
  | none :: _ => some 0
  | some _ :: xs => (firstNanIdx xs).map (· + 1)

/-- Semantics of np.argmin on a 1-D float array: the index of the first NaN
when one is present (NaN propagates through the reduction), otherwise the
first occurrence of the minimum. -/
def npArgmin (l : List NpFloat) : ℕ :=
  match firstNanIdx l with
  | some i => i
  | none => firstMinIdx (l.map (fun x => x.getD 0))

/-- Mean over axis 0 of a list of rational rows of width D, as np.mean: a
row of NaN when the slice is empty, otherwise the exact columnwise mean. -/
def npMeanAxis0 (rows : List (List ℚ)) (D : ℕ) : List NpFloat :=
  if rows.length = 0 then List.replicate D none
  else (List.range D).map (fun j =>
    some ((rows.map (fun r => r.getD j 0)).sum / rows.length))

/-- Model of the global numpy RNG state update performed by np.random.seed:
the previous global state is discarded and replaced by the seed. -/
def npSeed (s : ℕ) (_prev : ℕ) : ℕ := s

/-- A concrete stand-in instance for the external np.random.permutation
collaborator (state and length to permutation), used in concrete runs:
it returns the identity permutation of the given length. -/
def permId : ℕ → ℕ → List ℕ := fun _ n => List.range n

/-- Row indices selected by initialize_centers: the first n_clusters entries
of the permutation of range(N) drawn from the freshly seeded generator
(X[random_idx[:self.n_clusters]]; numpy slicing silently truncates when
n_clusters exceeds N). -/
def chosenIndices (permOf : ℕ → ℕ → List ℕ) (rng seed N k : ℕ) : List ℕ :=
  (permOf (npSeed seed rng) N).take k

/-- KMeansFromScratch.initialize_centers: np.random.seed(random_state), then
centers = X[random_idx[:n_clusters]]. permOf is the external
np.random.permutation collaborator, rng the incoming global RNG state. -/
def initialize_centers (permOf : ℕ → ℕ → List ℕ) (rng seed : ℕ)
    (X : List (List ℚ)) (k : ℕ) : List (List NpFloat) :=
  (chosenIndices permOf rng seed X.length k).map (fun i => (X.getD i []).map some)

/-- Squared Euclidean distance between a data row and a centroid row.
KMeansFromScratch.compute_distance returns np.linalg.norm(X - center,
axis=1); argmin over those norms equals argmin over these squared sums,
since sqrt is strictly monotone on nonnegative reals and maps NaN to NaN. -/
def distSq (x : List ℚ) (c : List NpFloat) : NpFloat :=
  (List.zipWith (fun a b => nfMul (nfSub (some a) b) (nfSub (some a) b)) x c).foldr
    nfAdd (some 0)

/-- KMeansFromScratch.assign_labels: per row, np.argmin of the distances to
the current centroids. -/
def assign_labels (X : List (List ℚ)) (centers : List (List NpFloat)) : List ℕ :=
  X.map (fun x => npArgmin (centers.map (fun c => distSq x c)))

/-- KMeansFromScratch.update_centers: new_centers[i] = X[labels == i].mean(axis=0)
for i in range(n_clusters); the mean of an empty selection is a NaN row. -/
def update_centers (X : List (List ℚ)) (labels : List ℕ) (k : ℕ) :
    List (List NpFloat) :=
  (List.range k).map (fun i =>
    npMeanAxis0
      (((X.zip labels).filter (fun p => p.2 == i)).map (fun p => p.1))
      (X.headD []).length)

/-- The iteration of KMeansFromScratch.fit: in each of the max_iter rounds,
assign labels, update centers, break when np.allclose(centers, new_centers,
atol=1e-4), else continue from the new centers; labels_ is the labelling of
the last executed round. Returns none exactly when the loop body never ran
(max_iter = 0), where the Python code would read the unbound local labels. -/
def fitLoop (X : List (List ℚ)) (k : ℕ) : ℕ → List (List NpFloat) → Option (List ℕ)
  | 0, _ => none
  | fuel + 1, centers =>
    let labels := assign_labels X centers
    let nc := update_centers X labels k
    if nfAllcloseMat centers nc then some labels
    else
      match fitLoop X k fuel nc with
      | none => some labels
      | some ls => some ls

/-- KMeansFromScratch.fit: initialize centers from the seeded permutation,
then iterate. -/
def fit (permOf : ℕ → ℕ → List ℕ) (rng seed : ℕ) (X : List (List ℚ))
    (k m : ℕ) : Option (List ℕ) :=
  fitLoop X k m (initialize_centers permOf rng seed X k)

/-- Edge list built by the loops of ratio_cut_clustering over a rows×cols
grayscale grid g: for each pixel (i, j) with flat index i*cols+j, an entry
(index, index-cols, d) when i > 0 and an entry (index, index-1, d) when
j > 0, in that order, where d = abs(int(g[i,j]) - int(g[neighbor])). The
stored third component is the argument of np.exp(-d / 10.0).
pixelEdges gives the contribution of one pixel (up edge first, then left). -/
def pixelEdges (cols : ℕ) (g : ℕ → ℕ → ℕ) (i j : ℕ) : List (ℕ × ℕ × ℕ) :=
  (if 0 < i then
    [(i * cols + j, i * cols + j - cols, ((g i j : ℤ) - g (i - 1) j).natAbs)]
   else []) ++
  (if 0 < j then
    [(i * cols + j, i * cols + j - 1, ((g i j : ℤ) - g i (j - 1)).natAbs)]
   else [])

/-- Edges contributed by row i of the grid, left to right. -/
def rowEdges (cols : ℕ) (g : ℕ → ℕ → ℕ) (i : ℕ) : List (ℕ × ℕ × ℕ) :=
  (List.range cols).flatMap (pixelEdges cols g i)

/-- Full edge list of the two nested loops, top row first. -/
def graphEntries (rows cols : ℕ) (g : ℕ → ℕ → ℕ) : List (ℕ × ℕ × ℕ) :=
  (List.range rows).flatMap (rowEdges cols g)

/-- Entry (r, c) of the assembled csr_matrix, for an arbitrary weight map f
applied to the stored exp arguments (csr_matrix sums duplicate coordinate
pairs, so the entry is the sum over all matching triples). -/
def affinityEntry {α : Type} [AddCommMonoid α] (f : ℕ → α) (rows cols : ℕ)
    (g : ℕ → ℕ → ℕ) (r c : ℕ) : α :=
  (((graphEntries rows cols g).filter (fun e => e.1 == r && e.2.1 == c)).map
    (fun e => f e.2.2)).sum

/-- Column total c of the stored matrix: graph.sum(axis=0) of the code, the
quantity the code uses as the degree of node c. -/
def degreeAxis0 {α : Type} [AddCommMonoid α] (f : ℕ → α) (rows cols : ℕ)
    (g : ℕ → ℕ → ℕ) (c : ℕ) : α :=
  (((graphEntries rows cols g).filter (fun e => e.2.1 == c)).map
    (fun e => f e.2.2)).sum

/-- Row total r of the stored matrix (the sum of row r of graph). -/
def rowSumA {α : Type} [AddCommMonoid α] (f : ℕ → α) (rows cols : ℕ)
    (g : ℕ → ℕ → ℕ) (r : ℕ) : α :=
  (((graphEntries rows cols g).filter (fun e => e.1 == r)).map
    (fun e => f e.2.2)).sum

/-- Sum of row r of the Laplacian diags(degrees) - graph built by
ratio_cut_clustering: the diagonal contributes degrees[r] (for r < size) and
the subtracted graph row contributes its row total, every stored column
index being below size. -/
def laplacianRowSum {α : Type} [AddCommGroup α] (f : ℕ → α) (rows cols : ℕ)
    (g : ℕ → ℕ → ℕ) (r : ℕ) : α :=
  degreeAxis0 f rows cols g r - rowSumA f rows cols g r

/-- Row sum of node i in the symmetrized affinity graph graph + graphᵀ (the
two directions of an edge are never both stored, so this is the row total
plus the column total of the stored matrix). -/
def symDegree {α : Type} [AddCommMonoid α] (f : ℕ → α) (rows cols : ℕ)
    (g : ℕ → ℕ → ℕ) (i : ℕ) : α :=
  rowSumA f rows cols g i + degreeAxis0 f rows cols g i

/-- Insertion of a value into an ascending list. -/
def insertSorted (x : ℚ) : List ℚ → List ℚ
  | [] => [x]
  | y :: ys => if x ≤ y then x :: y :: ys else y :: insertSorted x ys

/-- Ascending sort by insertion; np.median sorts its input ascending, and the
ascending reordering of a list is unique as a value list. -/
def sortQ : List ℚ → List ℚ
  | [] => []
  | x :: xs => insertSorted x (sortQ xs)

/-- np.median of a 1-D array: the middle element of the sorted data for odd
length, the average of the two middle elements for even length. -/
def npMedian (v : List ℚ) : ℚ :=
  let s := sortQ v
  let n := v.length
  if n % 2 = 1 then s.getD (n / 2) 0
  else (s.getD (n / 2 - 1) 0 + s.getD (n / 2) 0) / 2

/-- Flat binary labels of ratio_cut_clustering, (vec > median_value).astype(int),
where vec is the second eigenvector returned by the external eigsh solver. -/
def thresholdLabels (vec : List ℚ) : List ℕ :=
  vec.map (fun x => if npMedian vec < x then 1 else 0)

/-- Row-major reshape of a flat label vector to a rows×cols grid, as
numpy reshape(rows, cols). -/
def reshape2 (rows cols : ℕ) (flat : List ℕ) : List (List ℕ) :=
  (List.range rows).map (fun i =>
    (List.range cols).map (fun j => flat.getD (i * cols + j) 0))

/-- Tail of ratio_cut_clustering after the eigensolver call: threshold the
Fiedler vector vec at its median and reshape to the grid shape. The
num_clusters argument is accepted and, as in the source, never used. -/
def ratio_cut_clustering (num_clusters : ℕ) (rows cols : ℕ) (vec : List ℚ) :
    List (List ℕ) :=
  reshape2 rows cols (thresholdLabels vec)

/-- Message printed by load_images_from_folder when os.listdir raises
FileNotFoundError. -/
def dirMissingMsg (folder : String) : String :=
  "Error: The directory " ++ folder ++ " does not exist."

/-- Warning printed by load_images_from_folder when cv2.imread returns None. -/
def readWarning (filename : String) : String :=
  "Warning: " ++ filename ++ " could not be read as an image."

/-- Per-file loop of load_images_from_folder: decodable files are collected in
order, undecodable files produce a warning and the loop continues. Returns
the images together with the printed messages. -/
def loadLoop {Img : Type} (imread : String → Option Img) :
    List String → List Img × List String
  | [] => ([], [])
  | f :: rest =>
    match imread f, loadLoop imread rest with
    | some img, (imgs, warns) => (img :: imgs, warns)
    | none, (imgs, warns) => (imgs, readWarning f :: warns)

/-- load_images_from_folder: os.listdir (an external collaborator returning
the file list or FileNotFoundError) is tried; on failure an informational
message is printed and the empty collection returned; otherwise every file is
passed to cv2.imread (external, none on decode failure) with skip-and-warn. -/
def load_images_from_folder {Img : Type} (folder : String)
    (listdir : String → Except Unit (List String))
    (imread : String → Option Img) : List Img × List String :=
  match listdir folder with
  | Except.error _ => ([], [dirMissingMsg folder])
  | Except.ok files => loadLoop imread files

/-- Per-image loop of main: each image is processed by the body (kmeans and
ratio-cut segmentation plus scoring, any of whose sub-calls may raise,
modelled as Except); the loop carries no exception handler, so the first
error aborts the whole batch. -/
def mainLoop {Img Res : Type} (process : Img → Except String Res) :
    List Img → Except String (List Res)
  | [] => Except.ok []
  | img :: rest =>
    match process img with
    | Except.error e => Except.error e
    | Except.ok r =>
      match mainLoop process rest with
      | Except.error e => Except.error e
      | Except.ok rs => Except.ok (r :: rs)

/-- A process instance failing on image 0 and succeeding elsewhere, standing
in for the per-image body of main (whose first sub-call raises for some
image). -/
def procCE : ℕ → Except String ℕ :=
  fun n => if n = 0 then Except.error "fail" else Except.ok n

/-- C7: the clustering is a deterministic function of its inputs. Two calls of
KMeansFromScratch.fit with identical data X, cluster count k, iteration budget
and seed return identical labels whatever the global numpy RNG state was
before each call, because np.random.seed(random_state) overwrites that state
at the start of initialize_centers; hence repeated runs with identical inputs
agree. -/
theorem c7_fit_deterministic (permOf : ℕ → ℕ → List ℕ) (rngA rngB seed : ℕ)
    (X : List (List ℚ)) (k m : ℕ) :
    fit permOf rngA seed X k m = fit permOf rngB seed X k m := rfl

/-- C9: on X = [[0],[0],[10]] with k = 2 and the labelling [0,0,0] that leaves
cluster 1 empty, update_centers takes the mean of an empty row set and
returns the NaN row none for centroid 1 while raising nothing (it is a total
function into plain centroid matrices); np.allclose is false on a matrix
containing NaN, so fit does not break there and keeps iterating with that
centroid matrix, completing normally (this very situation arises inside
fit for this X, whose first two rows coincide). -/
theorem c9_empty_cluster_nan :
    update_centers [[0], [0], [10]] [0, 0, 0] 2 = [[some (10 / 3)], [none]] ∧
    nfAllcloseMat [[some 0], [some 0]]
      (update_centers [[0], [0], [10]] [0, 0, 0] 2) = false ∧
    fit permId 0 42 [[0], [0], [10]] 2 2 = some [1, 1, 1] := by
  have hupd : update_centers [[0], [0], [10]] [0, 0, 0] 2 =
      [[some (10 / 3)], [none]] := by
    norm_num [update_centers, npMeanAxis0, List.range_succ]
  have hassign : assign_labels [[0], [0], [10]] [[some 0], [some 0]] = [0, 0, 0] := by
    norm_num [assign_labels, distSq, npArgmin, firstNanIdx, firstMinIdx,
      nfMul, nfSub, nfAdd]
  have hclose1 : nfAllcloseMat [[some 0], [some 0]] [[some (10 / 3)], [none]] = false := by
    simp [nfAllcloseMat, nfClose]
  have hassign2 : assign_labels [[0], [0], [10]] [[some (10 / 3)], [none]] =
      [1, 1, 1] := by
    simp [assign_labels, distSq, npArgmin, firstNanIdx, nfMul, nfSub, nfAdd]
  have hupd2 : update_centers [[0], [0], [10]] [1, 1, 1] 2 = [[none], [some (10 / 3)]] := by
    norm_num [update_centers, npMeanAxis0, List.range_succ]
  have hclose2 : nfAllcloseMat [[some (10 / 3)], [none]] [[none], [some (10 / 3)]] = false := by
    simp [nfAllcloseMat, nfClose]
  have hinit : initialize_centers permId 0 42 [[0], [0], [10]] 2 =
      [[some 0], [some 0]] := rfl
  refine ⟨hupd, by rw [hupd]; exact hclose1, ?_⟩
  show fitLoop [[0], [0], [10]] 2 2 (initialize_centers permId 0 42 [[0], [0], [10]] 2) =
    some [1, 1, 1]
  rw [hinit, show (2 : ℕ) = 1 + 1 from rfl]
  rw [fitLoop]
  simp only [hassign, hupd, hclose1, Bool.false_eq_true, if_false]
  rw [fitLoop]
  simp only [hassign2, hupd2, hclose2, Bool.false_eq_true, if_false]
  rfl

/-- C6 counterexample: with the per-image body failing on image 0 and
succeeding on image 1, the driver loop of main, which has no exception
handler, returns the error of image 0 as the result of the whole batch, so
image 1 is not processed and no warning is aggregated; the claim that a
failed image is skipped with a warning while the remaining images are
processed is false. -/
theorem c6_counterexample :
    mainLoop procCE [0, 1] = Except.error "fail" ∧ procCE 1 = Except.ok 1 :=
  ⟨rfl, rfl⟩

/-- C6 amended: if the per-image body succeeds on every image before x and
fails on x, the failure propagates out of the batch loop of main: the whole
batch evaluates to that error, and the images after x are never processed
and contribute nothing. -/
theorem c6_error_propagates {Img Res : Type} (process : Img → Except String Res)
    (pre post : List Img) (x : Img) (e : String)
    (hpre : ∀ i ∈ pre, ∃ r, process i = Except.ok r)
    (hx : process x = Except.error e) :
    mainLoop process (pre ++ x :: post) = Except.error e := by
  induction pre with
  | nil => simp [mainLoop, hx]
  | cons a l ih =>
    obtain ⟨r, hr⟩ := hpre a (by simp)
    have hrest : mainLoop process (l ++ x :: post) = Except.error e :=
      ih (fun i hi => hpre i (by simp [hi]))
    simp [mainLoop, hr, hrest]

/-- C6 amended, witness: the batch [1, 0, 2] with the body failing exactly on
image 0 evaluates to the error of image 0. -/
theorem c6_error_propagates_witness :
    mainLoop procCE [1, 0, 2] = Except.error "fail" :=
  c6_error_propagates procCE [1] [2] 0 "fail"
    (by
      intro i hi
      simp only [List.mem_singleton] at hi
      subst hi
      exact ⟨1, rfl⟩)
    rfl

/-- C2 counterexample: with two rows and k = 3, initialize_centers raises
nothing and silently returns just the two rows of X as centroids (numpy
slicing truncates the index list), and with one row and k = 3 an entire fit
call completes normally, returning a labelling; no InvalidConfigError exists
anywhere in the code. -/
theorem c2_counterexample :
    initialize_centers permId 0 42 [[0], [1]] 3 = [[some 0], [some 1]] ∧
    fit permId 0 42 [[(0 : ℚ)]] 3 2 = some [1] :=
  ⟨rfl, rfl⟩

/-- Images collected by the loader loop are exactly the decodable files, in
order: a decode failure skips that file only. -/
theorem loadLoop_fst {Img : Type} (imread : String → Option Img)
    (files : List String) :
    (loadLoop imread files).1 = files.filterMap imread := by
  induction files with
  | nil => rfl
  | cons f rest ih =>
    cases h : imread f <;>
      simp [loadLoop, h, List.filterMap_cons, ih]

/-- Every undecodable file contributes its warning to the output of the loop. -/
theorem loadLoop_warns {Img : Type} (imread : String → Option Img)
    (files : List String) (f : String) (hf : f ∈ files)
    (hn : imread f = none) :
    readWarning f ∈ (loadLoop imread files).2 := by
  induction files with
  | nil => cases hf
  | cons a rest ih =>
    rcases List.mem_cons.mp hf with h | h
    · subst h
      simp [loadLoop, hn]
    · cases ha : imread a <;> simp [loadLoop, ha, ih h]

/-- C8: when the directory listing fails, load_images_from_folder prints the
informational message and returns the empty collection (it is a total
function, so there is no crash); when the listing succeeds, the returned
images are exactly the decodable files in order (an undecodable file is
skipped and the remaining files still processed) and every undecodable file
produces its warning message. -/
theorem c8_loader_resilient {Img : Type} (folder : String)
    (listdir : String → Except Unit (List String))
    (imread : String → Option Img) (files : List String) :
    (listdir folder = Except.error () →
      load_images_from_folder folder listdir imread = ([], [dirMissingMsg folder])) ∧
    (listdir folder = Except.ok files →
      (load_images_from_folder folder listdir imread).1 = files.filterMap imread ∧
      ∀ f ∈ files, imread f = none →
        readWarning f ∈ (load_images_from_folder folder listdir imread).2) := by
  constructor
  · intro h
    simp [load_images_from_folder, h]
  · intro h
    refine ⟨?_, ?_⟩
    · simp [load_images_from_folder, h, loadLoop_fst]
    · intro f hf hn
      simp only [load_images_from_folder, h]
      exact loadLoop_warns imread files f hf hn

/-- C8 witness: with a listing collaborator that fails on the directory
missing and succeeds on the directory present, and a decoder that fails
exactly on the file bad, the loader returns the empty collection plus the
informational message for the missing directory, and for the present
directory returns the one decodable image while warning about bad. -/
theorem c8_loader_resilient_witness :
    load_images_from_folder "missing"
      (fun d => if d = "missing" then Except.error () else Except.ok ["good", "bad"])
      (fun f => if f = "bad" then none else some f) =
      ([], [dirMissingMsg "missing"]) ∧
    (load_images_from_folder "img"
      (fun d => if d = "missing" then Except.error () else Except.ok ["good", "bad"])
      (fun f => if f = "bad" then none else some f)).1 = ["good"] ∧
    readWarning "bad" ∈
      (load_images_from_folder "img"
        (fun d => if d = "missing" then Except.error () else Except.ok ["good", "bad"])
        (fun f => if f = "bad" then none else some f)).2 := by
  refine ⟨?_, ?_, ?_⟩
  · exact (c8_loader_resilient "missing"
      (fun d => if d = "missing" then Except.error () else Except.ok ["good", "bad"])
      (fun f => if f = "bad" then none else some f) ["good", "bad"]).1 rfl
  · exact ((c8_loader_resilient "img"
      (fun d => if d = "missing" then Except.error () else Except.ok ["good", "bad"])
      (fun f => if f = "bad" then none else some f) ["good", "bad"]).2 rfl).1
  · exact ((c8_loader_resilient "img"
      (fun d => if d = "missing" then Except.error () else Except.ok ["good", "bad"])
      (fun f => if f = "bad" then none else some f) ["good", "bad"]).2 rfl).2
      "bad" (by simp) rfl

/-- Entries of the flat threshold labelling are 0 or 1 (the default of getD
being 0 as well). -/
theorem thresholdLabels_getD (vec : List ℚ) (n : ℕ) :
    (thresholdLabels vec).getD n 0 = 0 ∨ (thresholdLabels vec).getD n 0 = 1 := by
  by_cases h : n < vec.length
  · have hlen : n < (thresholdLabels vec).length := by simpa [thresholdLabels]
    rw [List.getD_eq_getElem _ _ hlen]
    simp only [thresholdLabels, List.getElem_map]
    split <;> simp
  · rw [List.getD_eq_default]
    · exact Or.inl rfl
    · simpa [thresholdLabels] using Nat.le_of_not_lt h

/-- In-range entries of the flat threshold labelling follow the median rule. -/
theorem thresholdLabels_getD_lt (vec : List ℚ) (n : ℕ) (h : n < vec.length) :
    (thresholdLabels vec).getD n 0 =
      if npMedian vec < vec.getD n 0 then 1 else 0 := by
  have hlen : n < (thresholdLabels vec).length := by simpa [thresholdLabels]
  rw [List.getD_eq_getElem _ _ hlen, List.getD_eq_getElem _ _ h]
  simp [thresholdLabels]

/-- Reading the reshaped grid at (i, j) reads the flat vector at i*cols+j. -/
theorem reshape2_getD (rows cols : ℕ) (flat : List ℕ) (i j : ℕ)
    (hi : i < rows) (hj : j < cols) :
    ((reshape2 rows cols flat).getD i []).getD j 0 =
      flat.getD (i * cols + j) 0 := by
  have h1 : i < (reshape2 rows cols flat).length := by simpa [reshape2]
  rw [List.getD_eq_getElem _ _ h1]
  simp only [reshape2, List.getElem_map, List.getElem_range]
  have h2 : j < ((List.range cols).map
      (fun j => flat.getD (i * cols + j) 0)).length := by simpa
  rw [List.getD_eq_getElem _ _ h2]
  simp

/-- C1: for a Fiedler vector whose length matches the grid size, the labelling returned by
the spectral partitioner is grid shaped (rows lists of cols entries), every
label value lies in the two-value set 0/1 whatever cluster count was
requested (the num_clusters argument does not influence the result), and the
label at pixel (i, j) is 1 exactly when the Fiedler component i*cols+j
exceeds the median of the vector. -/
theorem c1_spectral_two_valued (k1 k2 rows cols : ℕ) (vec : List ℚ)
    (hlen : vec.length = rows * cols) :
    ratio_cut_clustering k1 rows cols vec = ratio_cut_clustering k2 rows cols vec ∧
    (ratio_cut_clustering k1 rows cols vec).length = rows ∧
    (∀ row ∈ ratio_cut_clustering k1 rows cols vec, row.length = cols) ∧
    (∀ row ∈ ratio_cut_clustering k1 rows cols vec, ∀ l ∈ row, l = 0 ∨ l = 1) ∧
    (∀ i j, i < rows → j < cols →
      ((ratio_cut_clustering k1 rows cols vec).getD i []).getD j 0 =
        if npMedian vec < vec.getD (i * cols + j) 0 then 1 else 0) := by
  refine ⟨rfl, ?_, ?_, ?_, ?_⟩
  · simp [ratio_cut_clustering, reshape2]
  · intro row hrow
    simp only [ratio_cut_clustering, reshape2, List.mem_map] at hrow
    obtain ⟨i, _, rfl⟩ := hrow
    simp
  · intro row hrow l hl
    simp only [ratio_cut_clustering, reshape2, List.mem_map] at hrow
    obtain ⟨i, _, rfl⟩ := hrow
    simp only [List.mem_map] at hl
    obtain ⟨j, _, rfl⟩ := hl
    exact thresholdLabels_getD vec _
  · intro i j hi hj
    have hidx : i * cols + j < vec.length := by
      rw [hlen]
      calc i * cols + j < i * cols + cols := by omega
        _ = (i + 1) * cols := by ring
        _ ≤ rows * cols := Nat.mul_le_mul_right _ (by omega)
    rw [ratio_cut_clustering, reshape2_getD rows cols _ i j hi hj,
      thresholdLabels_getD_lt vec _ hidx]

/-- C1 witness: a 2×2 grid with Fiedler vector [1, 2, 3, 4]; requesting 3 or
6 clusters yields identical labellings and every entry is 0 or 1. -/
theorem c1_spectral_two_valued_witness :
    ratio_cut_clustering 3 2 2 [1, 2, 3, 4] =
      ratio_cut_clustering 6 2 2 [1, 2, 3, 4] ∧
    (∀ row ∈ ratio_cut_clustering 3 2 2 [1, 2, 3, 4], ∀ l ∈ row, l = 0 ∨ l = 1) :=
  ⟨(c1_spectral_two_valued 3 6 2 2 [1, 2, 3, 4] rfl).1,
   (c1_spectral_two_valued 3 6 2 2 [1, 2, 3, 4] rfl).2.2.2.1⟩

/-- Characterization of the stored edges: a triple is stored exactly when it
is the up edge of a pixel below the top row or the left edge of a pixel
right of the first column. -/
theorem mem_graphEntries (rows cols : ℕ) (g : ℕ → ℕ → ℕ) (e : ℕ × ℕ × ℕ) :
    e ∈ graphEntries rows cols g ↔
      ∃ i j, i < rows ∧ j < cols ∧
        ((0 < i ∧ e = (i * cols + j, i * cols + j - cols,
            ((g i j : ℤ) - g (i - 1) j).natAbs)) ∨
         (0 < j ∧ e = (i * cols + j, i * cols + j - 1,
            ((g i j : ℤ) - g i (j - 1)).natAbs))) := by
  simp only [graphEntries, rowEdges, pixelEdges, List.mem_flatMap, List.mem_range,
    List.mem_append]
  constructor
  · rintro ⟨i, hi, j, hj, h | h⟩
    · by_cases h0 : 0 < i
      · simp only [h0, if_true, List.mem_singleton] at h
        exact ⟨i, j, hi, hj, Or.inl ⟨h0, h⟩⟩
      · simp [h0] at h
    · by_cases h0 : 0 < j
      · simp only [h0, if_true, List.mem_singleton] at h
        exact ⟨i, j, hi, hj, Or.inr ⟨h0, h⟩⟩
      · simp [h0] at h
  · rintro ⟨i, j, hi, hj, ⟨h0, rfl⟩ | ⟨h0, rfl⟩⟩
    · exact ⟨i, hi, j, hj, Or.inl (by simp [h0])⟩
    · exact ⟨i, hi, j, hj, Or.inr (by simp [h0])⟩

/-- C5: the graph builder stores, for each pixel (i, j), an up edge to
(i-1, j) when i > 0 and a left edge to (i, j-1) when j > 0, whose stored
exp argument is the absolute intensity difference to that neighbour (the
stored weight being np.exp of minus that argument over the temperature 10);
only such edges are stored; and on a uniform grid every stored edge weight
is exactly exp(0) = 1. -/
theorem c5_neighbor_edges (rows cols : ℕ) (g : ℕ → ℕ → ℕ) :
    (∀ i j, i < rows → j < cols →
      (0 < i → (i * cols + j, i * cols + j - cols,
          ((g i j : ℤ) - g (i - 1) j).natAbs) ∈ graphEntries rows cols g) ∧
      (0 < j → (i * cols + j, i * cols + j - 1,
          ((g i j : ℤ) - g i (j - 1)).natAbs) ∈ graphEntries rows cols g)) ∧
    (∀ e ∈ graphEntries rows cols g, ∃ i j, i < rows ∧ j < cols ∧
      ((0 < i ∧ e = (i * cols + j, i * cols + j - cols,
          ((g i j : ℤ) - g (i - 1) j).natAbs)) ∨
       (0 < j ∧ e = (i * cols + j, i * cols + j - 1,
          ((g i j : ℤ) - g i (j - 1)).natAbs)))) ∧
    (∀ v : ℕ, (∀ i j, i < rows → j < cols → g i j = v) →
      ∀ e ∈ graphEntries rows cols g,
        Real.exp (-(e.2.2 : ℝ) / 10) = 1) := by
  refine ⟨?_, ?_, ?_⟩
  · intro i j hi hj
    constructor
    · intro h0
      exact (mem_graphEntries rows cols g _).mpr ⟨i, j, hi, hj, Or.inl ⟨h0, rfl⟩⟩
    · intro h0
      exact (mem_graphEntries rows cols g _).mpr ⟨i, j, hi, hj, Or.inr ⟨h0, rfl⟩⟩
  · intro e he
    exact (mem_graphEntries rows cols g e).mp he
  · intro v hv e he
    obtain ⟨i, j, hi, hj, ⟨h0, rfl⟩ | ⟨h0, rfl⟩⟩ := (mem_graphEntries rows cols g e).mp he
    · have h1 : g i j = v := hv i j hi hj
      have h2 : g (i - 1) j = v := hv (i - 1) j (by omega) hj
      simp [h1, h2, Real.exp_zero]
    · have h1 : g i j = v := hv i j hi hj
      have h2 : g i (j - 1) = v := hv i (j - 1) hi (by omega)
      simp [h1, h2, Real.exp_zero]

/-- C5 witness: on the uniform 4×4 grid of intensity 7, the up edge of pixel
(1, 0) is stored with exp argument 0, and every stored edge weight equals 1. -/
theorem c5_neighbor_edges_witness :
    ((4 : ℕ), (0 : ℕ), (0 : ℕ)) ∈ graphEntries 4 4 (fun _ _ => 7) ∧
    (∀ e ∈ graphEntries 4 4 (fun _ _ => 7),
      Real.exp (-(e.2.2 : ℝ) / 10) = 1) :=
  ⟨((c5_neighbor_edges 4 4 (fun _ _ => 7)).1 1 0 (by decide) (by decide)).1
      (by decide),
   (c5_neighbor_edges 4 4 (fun _ _ => 7)).2.2 7 (fun _ _ _ _ => rfl)⟩

/-- Number of edges contributed by one pixel. -/
theorem pixelEdges_length (cols : ℕ) (g : ℕ → ℕ → ℕ) (i j : ℕ) :
    (pixelEdges cols g i j).length =
      (if 0 < i then 1 else 0) + (if 0 < j then 1 else 0) := by
  by_cases h0 : 0 < i <;> by_cases h1 : 0 < j <;> simp [pixelEdges, h0, h1]

/-- Number of edges contributed by the first m pixels of row i. -/
theorem rowEdges_length_aux (cols : ℕ) (g : ℕ → ℕ → ℕ) (i : ℕ) :
    ∀ m, ((List.range m).flatMap (pixelEdges cols g i)).length =
      (if 0 < i then m else 0) + (m - 1) := by
  intro m
  induction m with
  | zero => simp
  | succ m ih =>
    rw [List.range_succ, List.flatMap_append, List.length_append, ih]
    simp only [List.flatMap_cons, List.flatMap_nil, List.append_nil,
      pixelEdges_length]
    by_cases h0 : 0 < i <;> by_cases h1 : 0 < m <;> simp [h0, h1] <;> omega

/-- Number of edges contributed by a whole row of the grid. -/
theorem rowEdges_length (cols : ℕ) (g : ℕ → ℕ → ℕ) (i : ℕ) :
    (rowEdges cols g i).length = (if 0 < i then cols else 0) + (cols - 1) :=
  rowEdges_length_aux cols g i cols

/-- Total number of stored entries of the affinity matrix. -/
theorem graphEntries_length (rows cols : ℕ) (g : ℕ → ℕ → ℕ) :
    (graphEntries rows cols g).length = (rows - 1) * cols + rows * (cols - 1) := by
  induction rows with
  | zero => simp [graphEntries]
  | succ r ih =>
    rw [graphEntries, List.range_succ, List.flatMap_append, List.length_append]
    rw [← graphEntries, ih]
    simp only [List.flatMap_cons, List.flatMap_nil, List.append_nil,
      rowEdges_length]
    cases r with
    | zero => simp
    | succ s =>
      simp only [Nat.succ_sub_one]
      have hs : 0 < s + 1 := Nat.succ_pos s
      rw [if_pos hs]
      ring

/-- Sum of a nonempty list of exponential edge weights is positive. -/
theorem sum_exp_weights_pos (l : List (ℕ × ℕ × ℕ)) (h : l ≠ []) :
    0 < (l.map (fun e => Real.exp (-(e.2.2 : ℝ) / 10))).sum := by
  cases l with
  | nil => exact absurd rfl h
  | cons d rest =>
    have h1 : (0 : ℝ) < Real.exp (-(d.2.2 : ℝ) / 10) := Real.exp_pos _
    have h2 : (0 : ℝ) ≤ (rest.map (fun e => Real.exp (-(e.2.2 : ℝ) / 10))).sum :=
      List.sum_nonneg (by
        intro x hx
        simp only [List.mem_map] at hx
        obtain ⟨d₂, _, rfl⟩ := hx
        exact le_of_lt (Real.exp_pos _))
    simp only [List.map_cons, List.sum_cons]
    linarith

/-- C10: every stored entry of the affinity matrix lies strictly below the
diagonal (only up and left predecessor edges are stored); for a grid with at
least one row and one column the number of stored entries is exactly
2*rows*cols - rows - cols; and as soon as any entry is stored the matrix
with the exponential weights of the code differs from its transpose. -/
theorem c10_strictly_lower (rows cols : ℕ) (g : ℕ → ℕ → ℕ) :
    (∀ e ∈ graphEntries rows cols g, e.2.1 < e.1) ∧
    (1 ≤ rows → 1 ≤ cols →
      ((graphEntries rows cols g).length : ℤ) =
        2 * rows * cols - rows - cols) ∧
    (graphEntries rows cols g ≠ [] →
      ∃ r c, affinityEntry (fun d => Real.exp (-(d : ℝ) / 10)) rows cols g r c ≠
        affinityEntry (fun d => Real.exp (-(d : ℝ) / 10)) rows cols g c r) := by
  have hlow : ∀ e ∈ graphEntries rows cols g, e.2.1 < e.1 := by
    intro e he
    obtain ⟨i, j, hi, hj, ⟨h0, rfl⟩ | ⟨h0, rfl⟩⟩ :=
      (mem_graphEntries rows cols g e).mp he
    · have : cols ≤ i * cols + j := le_trans (Nat.le_mul_of_pos_left cols h0)
        (Nat.le_add_right _ _)
      show i * cols + j - cols < i * cols + j
      omega
    · show i * cols + j - 1 < i * cols + j
      omega
  refine ⟨hlow, ?_, ?_⟩
  · intro h1 h2
    rw [graphEntries_length]
    obtain ⟨a, rfl⟩ : ∃ a, rows = a + 1 := ⟨rows - 1, by omega⟩
    obtain ⟨b, rfl⟩ : ∃ b, cols = b + 1 := ⟨cols - 1, by omega⟩
    simp only [Nat.succ_sub_one]
    push_cast
    ring
  · intro hne
    obtain ⟨e, he⟩ := List.exists_mem_of_ne_nil _ hne
    refine ⟨e.1, e.2.1, ?_⟩
    have hcr : e.2.1 < e.1 := hlow e he
    have hmem : e ∈ (graphEntries rows cols g).filter
        (fun x => x.1 == e.1 && x.2.1 == e.2.1) :=
      List.mem_filter.mpr ⟨he, by simp⟩
    have hpos : 0 < affinityEntry (fun d => Real.exp (-(d : ℝ) / 10))
        rows cols g e.1 e.2.1 := by
      unfold affinityEntry
      exact sum_exp_weights_pos _ (List.ne_nil_of_mem hmem)
    have hzero : affinityEntry (fun d => Real.exp (-(d : ℝ) / 10))
        rows cols g e.2.1 e.1 = 0 := by
      unfold affinityEntry
      rw [List.filter_eq_nil_iff.mpr]
      · simp
      · intro x hx
        have hx2 := hlow x hx
        simp only [Bool.and_eq_true, beq_iff_eq, not_and]
        intro hx1
        intro hx3
        omega
    rw [hzero]
    unfold affinityEntry at hpos
    exact ne_of_gt hpos

/-- C10 witness: on a 2×2 grid the affinity matrix stores exactly
2*2*2 - 2 - 2 = 4 entries and differs from its transpose. -/
theorem c10_strictly_lower_witness :
    ((graphEntries 2 2 (fun _ _ => 3)).length : ℤ) = 2 * 2 * 2 - 2 - 2 ∧
    ∃ r c, affinityEntry (fun d => Real.exp (-(d : ℝ) / 10)) 2 2
        (fun _ _ => 3) r c ≠
      affinityEntry (fun d => Real.exp (-(d : ℝ) / 10)) 2 2 (fun _ _ => 3) c r :=
  ⟨(c10_strictly_lower 2 2 (fun _ _ => 3)).2.1 (by decide) (by decide),
   (c10_strictly_lower 2 2 (fun _ _ => 3)).2.2 (by decide)⟩

/-- C3, failing input: on the uniform 2×2 grid of intensity 5 the degree
vector graph.sum(axis=0) computed by the code gives node 3 (the bottom-right pixel) degree
0 although the symmetrized affinity row sum of node 3 is 2, and row 0 of the
Laplacian diags(degrees) - graph sums to 2, not 0: the stored matrix is
strictly lower triangular and is never symmetrized, so the column totals
used as degrees do not match the row totals being subtracted. -/
theorem c3_laplacian_rowsum_bug :
    degreeAxis0 (fun d => Real.exp (-(d : ℝ) / 10)) 2 2 (fun _ _ => 5) 3 = 0 ∧
    symDegree (fun d => Real.exp (-(d : ℝ) / 10)) 2 2 (fun _ _ => 5) 3 = 2 ∧
    laplacianRowSum (fun d => Real.exp (-(d : ℝ) / 10)) 2 2 (fun _ _ => 5) 0 = 2 ∧
    laplacianRowSum (fun d => Real.exp (-(d : ℝ) / 10)) 2 2 (fun _ _ => 5) 0 ≠ 0 := by
  have hE : graphEntries 2 2 (fun _ _ => 5) =
      [(1, 0, 0), (2, 0, 0), (3, 1, 0), (3, 2, 0)] := by decide
  have h1 : degreeAxis0 (fun d => Real.exp (-(d : ℝ) / 10)) 2 2
      (fun _ _ => 5) 3 = 0 := by
    norm_num [degreeAxis0, hE]
  have h2 : rowSumA (fun d => Real.exp (-(d : ℝ) / 10)) 2 2
      (fun _ _ => 5) 3 = 2 := by
    norm_num [rowSumA, hE, Real.exp_zero]
  have h3 : degreeAxis0 (fun d => Real.exp (-(d : ℝ) / 10)) 2 2
      (fun _ _ => 5) 0 = 2 := by
    norm_num [degreeAxis0, hE, Real.exp_zero]
  have h4 : rowSumA (fun d => Real.exp (-(d : ℝ) / 10)) 2 2
      (fun _ _ => 5) 0 = 0 := by
    norm_num [rowSumA, hE]
  refine ⟨h1, ?_, ?_, ?_⟩
  · rw [symDegree, h1, h2]
    norm_num
  · rw [laplacianRowSum, h3, h4]
    norm_num
  · rw [laplacianRowSum, h3, h4]
    norm_num

/-- Lengths of the index selection and the initial centroid matrix: the
permutation of the N row indices is truncated to min(k, N) entries. -/
theorem init_lengths (permOf : ℕ → ℕ → List ℕ) (rng seed : ℕ)
    (X : List (List ℚ)) (k : ℕ)
    (hperm : (permOf (npSeed seed rng) X.length).Perm (List.range X.length)) :
    (chosenIndices permOf rng seed X.length k).length = min k X.length ∧
    (initialize_centers permOf rng seed X k).length = min k X.length := by
  have hlen : (permOf (npSeed seed rng) X.length).length = X.length := by
    simpa using hperm.length_eq
  have h1 : (chosenIndices permOf rng seed X.length k).length = min k X.length := by
    simp [chosenIndices, hlen]
  refine ⟨h1, ?_⟩
  simp only [initialize_centers, List.length_map]
  exact h1

/-- C2 amended: initialization raises nothing for any cluster count; it
selects the first min(k, N) indices of the seeded permutation of the N row
indices of X (silently producing fewer than k centroids when k exceeds N),
and when N ≥ k these are k pairwise distinct valid row indices, so k
distinct rows of X are chosen without replacement. -/
theorem c2_init_selection (permOf : ℕ → ℕ → List ℕ) (rng seed : ℕ)
    (X : List (List ℚ)) (k : ℕ)
    (hperm : (permOf (npSeed seed rng) X.length).Perm (List.range X.length)) :
    (chosenIndices permOf rng seed X.length k).length = min k X.length ∧
    (initialize_centers permOf rng seed X k).length = min k X.length ∧
    (k ≤ X.length →
      (chosenIndices permOf rng seed X.length k).length = k ∧
      (chosenIndices permOf rng seed X.length k).Nodup ∧
      ∀ i ∈ chosenIndices permOf rng seed X.length k, i < X.length) := by
  obtain ⟨h1, h2⟩ := init_lengths permOf rng seed X k hperm
  refine ⟨h1, h2, ?_⟩
  · intro hk
    refine ⟨by rw [h1]; omega, ?_, ?_⟩
    · have hnd : (permOf (npSeed seed rng) X.length).Nodup :=
        hperm.nodup_iff.mpr (List.nodup_range _)
      exact hnd.sublist (List.take_sublist _ _)
    · intro i hi
      have : i ∈ permOf (npSeed seed rng) X.length :=
        List.mem_of_mem_take hi
      have := (hperm.mem_iff).mp this
      exact List.mem_range.mp this

/-- C2 amended, witness: three rows, k = 2, identity permutation instance:
two distinct valid indices are selected. -/
theorem c2_init_selection_witness :
    (chosenIndices permId 0 42 3 2).length = 2 ∧
    (chosenIndices permId 0 42 3 2).Nodup ∧
    ∀ i ∈ chosenIndices permId 0 42 3 2, i < 3 :=
  (c2_init_selection permId 0 42 [[0], [1], [2]] 2 (by decide)).2.2 (by decide)

/-- A list with an element below x exists when not all elements are at least
x. -/
theorem exists_lt_of_not_all (x : ℚ) (xs : List ℚ)
    (hall : ¬ xs.all (fun y => decide (x ≤ y)) = true) :
    ∃ z ∈ xs, z < x := by
  by_contra hc
  push_neg at hc
  exact hall (List.all_eq_true.mpr
    (fun z hz => decide_eq_true (hc z hz)))

/-- The first-minimum index is a valid index. -/
theorem firstMinIdx_lt_length (l : List ℚ) (h : l ≠ []) :
    firstMinIdx l < l.length := by
  induction l with
  | nil => exact absurd rfl h
  | cons x xs ih =>
    rw [firstMinIdx]
    split
    · simp
    · rename_i hall
      have hxs : xs ≠ [] := by
        intro h0
        subst h0
        exact hall rfl
      have := ih hxs
      simp only [List.length_cons]
      omega

/-- The entry at the first-minimum index is at most every element. -/
theorem firstMinIdx_le (l : List ℚ) : ∀ y ∈ l, l.getD (firstMinIdx l) 0 ≤ y := by
  induction l with
  | nil => intro y hy; cases hy
  | cons x xs ih =>
    intro y hy
    rw [firstMinIdx]
    split
    · rename_i hall
      rw [List.getD_cons_zero]
      rcases List.mem_cons.mp hy with rfl | hmem
      · exact le_refl _
      · exact of_decide_eq_true (List.all_eq_true.mp hall y hmem)
    · rename_i hall
      rw [List.getD_cons_succ]
      rcases List.mem_cons.mp hy with rfl | hmem
      · obtain ⟨z, hz, hzx⟩ := exists_lt_of_not_all y xs hall
        have h1 := ih z hz
        linarith
      · exact ih y hmem

/-- The entry at the first-minimum index is strictly below every earlier
entry: the first occurrence of the minimum is returned. -/
theorem firstMinIdx_first (l : List ℚ) :
    ∀ i < firstMinIdx l, l.getD (firstMinIdx l) 0 < l.getD i 0 := by
  induction l with
  | nil => intro i hi; simp [firstMinIdx] at hi
  | cons x xs ih =>
    intro i hi
    by_cases hall : xs.all (fun y => decide (x ≤ y)) = true
    · rw [firstMinIdx, if_pos hall] at hi
      omega
    · rw [firstMinIdx, if_neg hall] at hi ⊢
      rw [List.getD_cons_succ]
      match i, hi with
      | 0, _ =>
        rw [List.getD_cons_zero]
        obtain ⟨z, hz, hzx⟩ := exists_lt_of_not_all x xs hall
        have h1 := firstMinIdx_le xs z hz
        linarith
      | i + 1, hi =>
        rw [List.getD_cons_succ]
        exact ih i (by omega)

/-- The first-NaN index, when present, is a valid index. -/
theorem firstNanIdx_lt_length (l : List NpFloat) (i : ℕ)
    (h : firstNanIdx l = some i) : i < l.length := by
  induction l generalizing i with
  | nil => cases h
  | cons a xs ih =>
    cases a with
    | none =>
      rw [firstNanIdx] at h
      cases h
      simp
    | some q =>
      rw [firstNanIdx] at h
      cases hx : firstNanIdx xs with
      | none => rw [hx] at h; cases h
      | some j =>
        rw [hx] at h
        have hij : j + 1 = i := Option.some_inj.mp h
        have := ih j hx
        simp only [List.length_cons]
        omega

/-- A NaN-free list has no first-NaN index. -/
theorem firstNanIdx_eq_none (l : List NpFloat) (h : ∀ x ∈ l, x ≠ none) :
    firstNanIdx l = none := by
  induction l with
  | nil => rfl
  | cons a xs ih =>
    cases a with
    | none => exact absurd rfl (h none (by simp))
    | some q =>
      rw [firstNanIdx, ih (fun x hx => h x (by simp [hx]))]
      rfl

/-- np.argmin always returns a valid index on nonempty input. -/
theorem npArgmin_lt_length (l : List NpFloat) (h : l ≠ []) :
    npArgmin l < l.length := by
  unfold npArgmin
  split
  · rename_i i hx
    exact firstNanIdx_lt_length l i hx
  · have h1 : l.map (fun x => x.getD 0) ≠ [] := by simpa using h
    have := firstMinIdx_lt_length _ h1
    simpa using this

/-- On NaN-free input np.argmin is the first-occurrence minimizer. -/
theorem npArgmin_all_some (l : List NpFloat) (h : ∀ x ∈ l, x ≠ none) :
    npArgmin l = firstMinIdx (l.map (fun x => x.getD 0)) := by
  unfold npArgmin
  rw [firstNanIdx_eq_none l h]

/-- update_centers always returns one centroid row per cluster. -/
theorem update_centers_length (X : List (List ℚ)) (labels : List ℕ) (k : ℕ) :
    (update_centers X labels k).length = k := by
  simp [update_centers]

/-- The label vector has one entry per data row. -/
theorem assign_labels_length (X : List (List ℚ)) (centers : List (List NpFloat)) :
    (assign_labels X centers).length = X.length := by
  simp [assign_labels]

/-- Every assigned label indexes an existing centroid. -/
theorem assign_labels_lt (X : List (List ℚ)) (centers : List (List NpFloat))
    (hk : centers ≠ []) :
    ∀ l ∈ assign_labels X centers, l < centers.length := by
  intro l hl
  simp only [assign_labels, List.mem_map] at hl
  obtain ⟨x, _, rfl⟩ := hl
  have h1 : centers.map (fun c => distSq x c) ≠ [] := by simpa using hk
  have := npArgmin_lt_length _ h1
  simpa using this

/-- With at least one iteration and k current centroids, the fit loop always
terminates with the labels of some k-row centroid matrix (either the
convergence break or the exhaustion of max_iter). -/
theorem fitLoop_result (X : List (List ℚ)) (k : ℕ) :
    ∀ fuel centers, 1 ≤ fuel → centers.length = k →
      ∃ cs, cs.length = k ∧
        fitLoop X k fuel centers = some (assign_labels X cs) := by
  intro fuel
  induction fuel with
  | zero => intro centers h _; omega
  | succ fuel ih =>
    intro centers _ hc
    by_cases hcl : nfAllcloseMat centers
        (update_centers X (assign_labels X centers) k) = true
    · exact ⟨centers, hc, by simp [fitLoop, hcl]⟩
    · rcases hfuel : fitLoop X k fuel (update_centers X (assign_labels X centers) k)
        with _ | ls
      · exact ⟨centers, hc, by simp [fitLoop, hcl, hfuel]⟩
      · have hf1 : 1 ≤ fuel := by
          rcases Nat.eq_zero_or_pos fuel with rfl | h
          · simp [fitLoop] at hfuel
          · exact h
        obtain ⟨cs, hcs, heq⟩ := ih
          (update_centers X (assign_labels X centers) k)
          hf1 (update_centers_length X _ k)
        have hls : ls = assign_labels X cs := by
          rw [hfuel] at heq
          exact Option.some_inj.mp heq
        exact ⟨cs, hcs, by simp [fitLoop, hcl, hfuel, hls]⟩

/-- C4: for N ≥ k ≥ 1 and at least one iteration, fit returns a label vector
of length N whose entries all lie in [0, k) and which is the argmin
assignment against some k-row centroid matrix; and on every NaN-free
distance row the assignment picks the first-occurrence minimizer: its
distance is at most the distance to every centroid and strictly below the
distance to every earlier centroid, so ties go to the lowest centroid
index. -/
theorem c4_fit_labels (permOf : ℕ → ℕ → List ℕ) (rng seed : ℕ)
    (X : List (List ℚ)) (k m : ℕ)
    (hperm : (permOf (npSeed seed rng) X.length).Perm (List.range X.length))
    (hk1 : 1 ≤ k) (hkN : k ≤ X.length) (hm : 1 ≤ m) :
    (∃ ls cs, fit permOf rng seed X k m = some ls ∧
      ls.length = X.length ∧ (∀ l ∈ ls, l < k) ∧
      cs.length = k ∧ ls = assign_labels X cs) ∧
    (∀ (x : List ℚ) (cs : List (List NpFloat)),
      (∀ c ∈ cs, distSq x c ≠ none) →
      (∀ y ∈ cs.map (fun c => (distSq x c).getD 0),
        (cs.map (fun c => (distSq x c).getD 0)).getD
          (npArgmin (cs.map (fun c => distSq x c))) 0 ≤ y) ∧
      (∀ i < npArgmin (cs.map (fun c => distSq x c)),
        (cs.map (fun c => (distSq x c).getD 0)).getD
          (npArgmin (cs.map (fun c => distSq x c))) 0 <
          (cs.map (fun c => (distSq x c).getD 0)).getD i 0)) := by
  constructor
  · have hinit : (initialize_centers permOf rng seed X k).length = k := by
      have := (init_lengths permOf rng seed X k hperm).2
      rw [this]
      omega
    obtain ⟨cs, hcs, heq⟩ := fitLoop_result X k m
      (initialize_centers permOf rng seed X k) hm hinit
    refine ⟨assign_labels X cs, cs, heq, assign_labels_length X cs, ?_, hcs, rfl⟩
    have hne : cs ≠ [] := by
      intro h0
      rw [h0] at hcs
      simp at hcs
      omega
    intro l hl
    have := assign_labels_lt X cs hne l hl
    omega
  · intro x cs hsome
    have hmap : ∀ z ∈ cs.map (fun c => distSq x c), z ≠ none := by
      intro z hz
      simp only [List.mem_map] at hz
      obtain ⟨c, hc, rfl⟩ := hz
      exact hsome c hc
    have harg : npArgmin (cs.map (fun c => distSq x c)) =
        firstMinIdx (cs.map (fun c => (distSq x c).getD 0)) := by
      rw [npArgmin_all_some _ hmap, List.map_map]
      rfl
    rw [harg]
    exact ⟨firstMinIdx_le _, firstMinIdx_first _⟩

/-- C4 witness: two one-dimensional rows, k = 2, one iteration, identity
permutation instance. -/
theorem c4_fit_labels_witness :
    ∃ ls cs, fit permId 0 42 [[0], [10]] 2 1 = some ls ∧
      ls.length = 2 ∧ (∀ l ∈ ls, l < 2) ∧
      cs.length = 2 ∧ ls = assign_labels [[0], [10]] cs :=
  (c4_fit_labels permId 0 42 [[0], [10]] 2 1 (by decide) (by decide)
    (by decide) (by decide)).1
